import Mathlib

/-!
A verification model of minifed (`main.go`): a single-process test harness for a
federation trust hierarchy.  The model covers the topology builder
(`mustParseConfig`), the trust materializer and the host dispatcher loops of
`main`, together with the error/panic behaviour of each step.

Modelling conventions:
* Go strings are Lean `String`s; `strings.Split(edge, "->")` and
  `strings.TrimSpace` are reimplemented as structural recursions over `List Char`
  (`splitArrow`, `trimStr`) so that everything reduces in the kernel.
* `url.Parse` composed with `URL.String()` is an abstract parameter
  `parseURL : String → Option String`: a node's `identifier` field is the
  rendered URL.  `URL.Hostname()` (the host with the port stripped) is a second
  abstract parameter `hostnameOf : String → String` applied to the rendering.
* A signing keypair (`mustGenerateECDSAPrivateKey`) is modelled by its
  generation index: the builder threads a counter and hands out fresh indices.
* `log.Fatalf` and runtime panics are modelled with `Except Err`; the `Err`
  constructors record which check fired.  Panics (out-of-range indexing, nil
  pointer dereference, `http.ServeMux` duplicate registration) are separate
  constructors from the `log.Fatalf` configuration errors.
* Go `map` values are insertion-ordered association lists; Go map iteration
  order is unspecified, the model fixes declaration/insertion order (none of
  the verified properties depend on the order).
-/

/-- One entry of `Config.Entities`: the `kind` and `identifier` strings of an
entity declaration. -/
structure EntityDecl where
  kind : String
  identifier : String
deriving DecidableEq, Repr

/-- The `Entity` struct of `main.go`.  Superiors and subordinates are kept as
lists of entity names (the arena `map[string]*Entity` resolves them); the
`identifier` is the rendered URL and `key` is the generation index of the
node's signing keypair. -/
structure Node where
  name : String
  kind : String
  identifier : String
  key : Nat
  subs : List String
  sups : List String
deriving DecidableEq, Repr

/-- The failure modes of startup: `log.Fatalf` configuration errors and runtime
panics. -/
inductive Err where
  /-- `log.Fatalf("%s: kind must be present", ...)` -/
  | emptyKind
  /-- `log.Fatalf("%s: identifier must be present", ...)` -/
  | emptyIdentifier
  /-- `log.Fatalf("undefined reference to node %s in edge %d", ...)` -/
  | undefinedRef
  /-- `log.Fatalf("invalid url for node %s: %s", ...)` -/
  | invalidURL
  /-- runtime panic: `split[1]` with `len(split) < 2` -/
  | panicIndexOutOfRange
  /-- runtime panic: `http.ServeMux` registration of an already registered pattern -/
  | panicDuplicatePattern
  /-- runtime panic: nil `entity.Storage` dereferenced while writing trust records -/
  | panicNilStore
deriving DecidableEq, Repr

/-- Whether the failure is a `log.Fatalf` configuration error (as opposed to a
runtime panic). -/
def Err.isConfigError : Err → Bool
  | .emptyKind => true
  | .emptyIdentifier => true
  | .undefinedRef => true
  | .invalidURL => true
  | .panicIndexOutOfRange => false
  | .panicDuplicatePattern => false
  | .panicNilStore => false

/-- First-match lookup in an association list (Go map read). -/
def alookup {α : Type} : List (String × α) → String → Option α
  | [], _ => none
  | (k, v) :: rest, n => if k = n then some v else alookup rest n

/-- The keys of an association list. -/
def akeys {α : Type} (l : List (String × α)) : List String :=
  l.map Prod.fst

/-- Apply `f` to every value stored under key `target` (Go map update through a
pointer; with unique keys this touches exactly one entry). -/
def amap (f : Node → Node) (target : String) : List (String × Node) → List (String × Node)
  | [] => []
  | (k, v) :: rest =>
    if k = target then (k, f v) :: amap f target rest else (k, v) :: amap f target rest

/-- `strings.Split` specialised to the separator `"->"`, on character lists:
greedy left-to-right scanning, `acc` holds the current piece reversed. -/
def splitArrowAux : List Char → List Char → List (List Char)
  | [], acc => [acc.reverse]
  | [c], acc => [(c :: acc).reverse]
  | c1 :: c2 :: rest, acc =>
    if c1 = '-' ∧ c2 = '>' then acc.reverse :: splitArrowAux rest []
    else splitArrowAux (c2 :: rest) (c1 :: acc)

/-- `strings.Split(edge, "->")`. -/
def splitArrow (s : String) : List String :=
  (splitArrowAux s.toList []).map String.mk

/-- Whether the separator `"->"` occurs in the character list. -/
def containsArrowChars : List Char → Bool
  | [] => false
  | [_] => false
  | c1 :: c2 :: rest =>
    if c1 = '-' ∧ c2 = '>' then true else containsArrowChars (c2 :: rest)

/-- `strings.TrimSpace`. -/
def trimStr (s : String) : String :=
  String.mk (((s.toList.dropWhile Char.isWhitespace).reverse.dropWhile
    Char.isWhitespace).reverse)

/-- The head/tail pair denoted by an edge string: `split[0]` and `split[1]`
trimmed, or `none` when indexing `split[1]` would be out of range. -/
def edgePair (e : String) : Option (String × String) :=
  match splitArrow e with
  | s0 :: s1 :: _ => some (trimStr s0, trimStr s1)
  | _ => none

/-- The pairs denoted by a list of edge strings (malformed edges dropped). -/
def edgePairs (edges : List String) : List (String × String) :=
  edges.filterMap edgePair

/-- All names referenced by a list of head/tail pairs. -/
def refNames : List (String × String) → List String
  | [] => []
  | (h, t) :: rest => h :: t :: refNames rest

/-- The tails of all pairs whose head is `n`, in order. -/
def tailsOf (n : String) : List (String × String) → List String
  | [] => []
  | (h, t) :: rest => if h = n then t :: tailsOf n rest else tailsOf n rest

/-- The heads of all pairs whose tail is `n`, in order. -/
def headsOf (n : String) : List (String × String) → List String
  | [] => []
  | (h, t) :: rest => if t = n then h :: headsOf n rest else headsOf n rest

/-- The `entities` validation loop of `mustParseConfig`: every declared entity
must have a non-empty kind and a non-empty identifier. -/
def checkEntities : List (String × EntityDecl) → Except Err Unit
  | [] => .ok ()
  | (_, d) :: rest =>
    if d.kind = "" then .error .emptyKind
    else if d.identifier = "" then .error .emptyIdentifier
    else checkEntities rest

/-- Intermediate state of the builder: the `entityNodes` arena plus the
keypair-generation counter. -/
structure BuildState where
  nodes : List (String × Node)
  nextKey : Nat
deriving DecidableEq, Repr

/-- The lazy node-creation block of `mustParseConfig` (lines 120-133 / 135-148):
if `name` is already in the arena nothing happens, otherwise its identifier URL
is parsed (`log.Fatalf` on failure) and a node with a fresh keypair is
inserted. -/
def createIfAbsent (parseURL : String → Option String) (st : BuildState)
    (name : String) (d : EntityDecl) : Except Err BuildState :=
  match alookup st.nodes name with
  | some _ => .ok st
  | none =>
    match parseURL d.identifier with
    | none => .error .invalidURL
    | some u =>
      .ok { nodes := st.nodes ++
              [(name, { name := name, kind := d.kind, identifier := u,
                        key := st.nextKey, subs := [], sups := [] })],
            nextKey := st.nextKey + 1 }

/-- Lines 150-151 of `mustParseConfig`: append `tail` to the head node's
subordinates and `head` to the tail node's superiors. -/
def addLink (st : BuildState) (head tail : String) : BuildState :=
  { st with
    nodes := amap (fun node => { node with sups := node.sups ++ [head] }) tail
      (amap (fun node => { node with subs := node.subs ++ [tail] }) head st.nodes) }

/-- The body of the edge loop of `mustParseConfig`: split the edge string,
index the first two pieces (panic when absent), resolve both declarations
(`log.Fatalf` on an undefined reference), lazily create both nodes, link
them. -/
def processEdge (parseURL : String → Option String)
    (ents : List (String × EntityDecl)) (st : BuildState) (edge : String) :
    Except Err BuildState :=
  match splitArrow edge with
  | s0 :: s1 :: _ =>
    let head := trimStr s0
    let tail := trimStr s1
    match alookup ents head with
    | none => .error .undefinedRef
    | some headConfig =>
      match alookup ents tail with
      | none => .error .undefinedRef
      | some tailConfig =>
        match createIfAbsent parseURL st head headConfig with
        | .error e => .error e
        | .ok st1 =>
          match createIfAbsent parseURL st1 tail tailConfig with
          | .error e => .error e
          | .ok st2 => .ok (addLink st2 head tail)
  | _ => .error .panicIndexOutOfRange

/-- The edge loop of `mustParseConfig`, in declaration order. -/
def buildFold (parseURL : String → Option String)
    (ents : List (String × EntityDecl)) :
    BuildState → List String → Except Err BuildState
  | st, [] => .ok st
  | st, e :: es =>
    match processEdge parseURL ents st e with
    | .error err => .error err
    | .ok st' => buildFold parseURL ents st' es

/-- `mustParseConfig` (file reading and YAML decoding aside): validate the
entity declarations, then run the edge loop from an empty arena. -/
def mustParseConfig (parseURL : String → Option String)
    (ents : List (String × EntityDecl)) (edges : List String) :
    Except Err (List (String × Node)) :=
  match checkEntities ents with
  | .error e => .error e
  | .ok _ =>
    match buildFold parseURL ents { nodes := [], nextKey := 0 } edges with
    | .error e => .error e
    | .ok st => .ok st.nodes

/-- `EntityKindLeaf` of `main.go`. -/
def EntityKindLeaf : String := "leaf"

/-- `EntityKindTrustAnchor` of `main.go`. -/
def EntityKindTrustAnchor : String := "trust-anchor"

/-- `EntityKindIntermediate` of `main.go`. -/
def EntityKindIntermediate : String := "intermediate"

/-- The guard of line 196 of `main.go`: only intermediates and trust anchors
get a `storage.BadgerStorage` attached. -/
def hasTrustStore (kind : String) : Bool :=
  kind == EntityKindIntermediate || kind == EntityKindTrustAnchor

/-- The registration loop of `main` (lines 214-218): each entity's handler is
registered in the `http.ServeMux` under the pattern `Hostname() + "/"`.
`ServeMux.Handle` panics when the pattern is already registered, which the
`alookup` guard models; otherwise the pattern is appended to the table, mapped
to the entity's name (standing for its handler). -/
def registerFold (hostnameOf : String → String) :
    List (String × Node) → List (String × String) → Except Err (List (String × String))
  | [], table => .ok table
  | (name, node) :: rest, table =>
    let pattern := hostnameOf node.identifier ++ "/"
    match alookup table pattern with
    | some _ => .error .panicDuplicatePattern
    | none => registerFold hostnameOf rest (table ++ [(pattern, name)])

/-- Register every entity of the arena in an empty `http.ServeMux`. -/
def registerAll (hostnameOf : String → String) (m : List (String × Node)) :
    Except Err (List (String × String)) :=
  registerFold hostnameOf m []

/-- `http.ServeMux` dispatch for the patterns this program registers: every
pattern is `host + "/"` (a host-specific subtree rooted at `/`), so a request
whose Host header is `host` is served by the handler registered under the
pattern `host + "/"`, and a request whose host matches no pattern falls through
(404). -/
def dispatchHost (table : List (String × String)) (host : String) : Option String :=
  alookup table (host ++ "/")

/-- `storage.StatusActive`. -/
inductive SubStatus where
  | active
deriving DecidableEq, Repr

/-- `storage.SubordinateInfo` as filled in by `main` (lines 224-229). -/
structure SubordinateInfo where
  jwks : Nat
  entityTypes : List String
  entityID : String
  status : SubStatus
deriving DecidableEq, Repr

/-- Modelled from the spec: the external federation engine
(`FedEntity.EntityConfigurationPayload().JWKS`) exposes the public key set of
the signing keypair the entity was created with; keypairs are modelled by
their generation index and the public key set by the same index. -/
def publicJWKS (key : Nat) : Nat := key

/-- The `storage.SubordinateInfo` record `main` writes for a subordinate node. -/
def subInfo (c : Node) : SubordinateInfo :=
  { jwks := publicJWKS c.key, entityTypes := [], entityID := c.identifier,
    status := .active }

/-- A key-value write into a subordinate store: later writes shadow earlier
ones under first-match lookup. -/
def kvWrite (store : List (String × SubordinateInfo)) (k : String)
    (v : SubordinateInfo) : List (String × SubordinateInfo) :=
  (k, v) :: store

/-- The inner loop of trust materialization: write one record per subordinate
name, keyed by the subordinate's identifier.  (Subordinate names always
resolve in the arena; an unresolvable name writes nothing.) -/
def writeSubs (m : List (String × Node)) :
    List String → List (String × SubordinateInfo) → List (String × SubordinateInfo)
  | [], store => store
  | c :: rest, store =>
    match alookup m c with
    | some cNode => writeSubs m rest (kvWrite store cNode.identifier (subInfo cNode))
    | none => writeSubs m rest store

/-- The trust materialization loop of `main` (lines 221-241) over a suffix of
the arena: a node owning a trust store gets all its subordinate records
written; a node without a store is skipped when it has no subordinates and
otherwise panics (`entity.Storage` is nil).  Returns the stores of the
store-owning nodes, keyed by entity name. -/
def materializeFold (m : List (String × Node)) :
    List (String × Node) →
    Except Err (List (String × List (String × SubordinateInfo)))
  | [] => .ok []
  | (name, node) :: rest =>
    if hasTrustStore node.kind then
      match materializeFold m rest with
      | .error e => .error e
      | .ok stores => .ok ((name, writeSubs m node.subs []) :: stores)
    else if node.subs.isEmpty then materializeFold m rest
    else .error .panicNilStore

/-- Trust materialization over the whole arena. -/
def materialize (m : List (String × Node)) :
    Except Err (List (String × List (String × SubordinateInfo))) :=
  materializeFold m m

/-- The state of the process right before `server.ListenAndServe()`: the node
arena, the dispatch table and the populated trust stores. -/
structure Server where
  nodes : List (String × Node)
  mux : List (String × String)
  stores : List (String × List (String × SubordinateInfo))
deriving DecidableEq, Repr

/-- The startup sequence of `main` up to the listener: parse the config and
build the graph, create and register every entity's handler, then materialize
trust records.  Any error or panic aborts before the listener binds. -/
def startup (parseURL : String → Option String) (hostnameOf : String → String)
    (ents : List (String × EntityDecl)) (edges : List String) :
    Except Err Server :=
  match mustParseConfig parseURL ents edges with
  | .error e => .error e
  | .ok m =>
    match registerAll hostnameOf m with
    | .error e => .error e
    | .ok table =>
      match materialize m with
      | .error e => .error e
      | .ok stores => .ok { nodes := m, mux := table, stores := stores }

/-- Test instantiation of the abstract URL parser: accepts every non-empty
string and renders it unchanged. -/
def demoParse (s : String) : Option String :=
  if s = "" then none else some s

/-- Drop everything up to and including the first `"//"`. -/
def dropScheme : List Char → List Char
  | '/' :: '/' :: rest => rest
  | _ :: rest => dropScheme rest
  | [] => []

/-- Take characters up to the first `'/'` or `':'`. -/
def takeHost : List Char → List Char
  | [] => []
  | c :: rest => if c = '/' ∨ c = ':' then [] else c :: takeHost rest

/-- Test instantiation of the abstract hostname extractor: the characters of
the rendered URL between the scheme separator and the first `'/'` or `':'`
(so the port is excluded, as in `URL.Hostname()`). -/
def demoHost (s : String) : String :=
  String.mk (takeHost (dropScheme s.toList))

/-- Entity declarations of the running example (a fragment of the federation
in `config.yaml`). -/
def demoEnts : List (String × EntityDecl) :=
  [("TA", { kind := "trust-anchor", identifier := "https://ta.example.com" }),
   ("IM", { kind := "intermediate", identifier := "https://im.example.com" }),
   ("OP", { kind := "leaf", identifier := "https://op.example.com" })]

/-- Edges of the running example. -/
def demoEdges : List String :=
  ["TA -> IM", "TA -> OP", "IM -> OP"]

/-- The node that an edge loop starting from `st` leaves under name `n`,
phrased as an extension of an existing node: the tails of the processed pairs
headed by `n` are appended to its subordinates, the heads of the pairs tailed
by `n` to its superiors. -/
def extendNode (n : String) (ps : List (String × String)) (node : Node) : Node :=
  { node with subs := node.subs ++ tailsOf n ps,
              sups := node.sups ++ headsOf n ps }

theorem alookup_mem {α : Type} {l : List (String × α)} {n : String} {v : α}
    (h : alookup l n = some v) : (n, v) ∈ l := by
  induction l with
  | nil => simp [alookup] at h
  | cons p rest ih =>
    obtain ⟨k, w⟩ := p
    simp only [alookup] at h
    by_cases hk : k = n
    · subst hk
      rw [if_pos rfl] at h
      injection h with h
      subst h
      exact List.mem_cons_self _ _
    · rw [if_neg hk] at h
      exact List.mem_cons_of_mem _ (ih h)

theorem alookup_eq_none {α : Type} {l : List (String × α)} {n : String} :
    alookup l n = none ↔ n ∉ akeys l := by
  induction l with
  | nil => simp [alookup, akeys]
  | cons p rest ih =>
    obtain ⟨k, w⟩ := p
    by_cases hk : k = n
    · simp [alookup, akeys, hk, ih, eq_comm]
    · simp [alookup, akeys, hk, ih, eq_comm]
      exact fun _ h => hk h.symm

theorem alookup_isSome_iff {α : Type} {l : List (String × α)} {n : String} :
    (alookup l n).isSome = true ↔ n ∈ akeys l := by
  rw [← Decidable.not_iff_not, ← alookup_eq_none]
  cases alookup l n <;> simp

theorem alookup_append_of_some {α : Type} {l1 : List (String × α)}
    (l2 : List (String × α)) {n : String} {v : α} (h : alookup l1 n = some v) :
    alookup (l1 ++ l2) n = some v := by
  induction l1 with
  | nil => simp [alookup] at h
  | cons p rest ih =>
    obtain ⟨k, w⟩ := p
    simp only [alookup] at h ⊢
    by_cases hk : k = n
    · simpa [hk] using h
    · rw [if_neg hk] at h ⊢
      exact ih h

theorem alookup_append_of_none {α : Type} {l1 : List (String × α)}
    (l2 : List (String × α)) {n : String} (h : alookup l1 n = none) :
    alookup (l1 ++ l2) n = alookup l2 n := by
  induction l1 with
  | nil => simp
  | cons p rest ih =>
    obtain ⟨k, w⟩ := p
    simp only [alookup] at h ⊢
    by_cases hk : k = n
    · simp [hk] at h
    · rw [if_neg hk] at h ⊢
      exact ih h

theorem akeys_append {α : Type} (l1 l2 : List (String × α)) :
    akeys (l1 ++ l2) = akeys l1 ++ akeys l2 := by
  simp [akeys]

theorem alookup_amap (f : Node → Node) (t : String) (l : List (String × Node))
    (n : String) :
    alookup (amap f t l) n =
      if n = t then (alookup l n).map f else alookup l n := by
  induction l with
  | nil => simp [amap, alookup]
  | cons p rest ih =>
    obtain ⟨k, v⟩ := p
    by_cases hkt : k = t <;> by_cases hkn : k = n <;>
      by_cases hnt : n = t <;>
      simp_all [amap, alookup]

theorem akeys_amap (f : Node → Node) (t : String) (l : List (String × Node)) :
    akeys (amap f t l) = akeys l := by
  induction l with
  | nil => rfl
  | cons p rest ih =>
    obtain ⟨k, v⟩ := p
    by_cases hkt : k = t <;> simp [amap, akeys, hkt] <;>
      simpa [akeys] using ih

theorem tailsOf_append (n : String) (ps qs : List (String × String)) :
    tailsOf n (ps ++ qs) = tailsOf n ps ++ tailsOf n qs := by
  induction ps with
  | nil => simp [tailsOf]
  | cons p rest ih =>
    obtain ⟨h, t⟩ := p
    by_cases hh : h = n <;> simp [tailsOf, hh, ih]

theorem headsOf_append (n : String) (ps qs : List (String × String)) :
    headsOf n (ps ++ qs) = headsOf n ps ++ headsOf n qs := by
  induction ps with
  | nil => simp [headsOf]
  | cons p rest ih =>
    obtain ⟨h, t⟩ := p
    by_cases ht : t = n <;> simp [headsOf, ht, ih]

theorem mem_tailsOf {n x : String} {ps : List (String × String)} :
    x ∈ tailsOf n ps ↔ (n, x) ∈ ps := by
  induction ps with
  | nil => simp [tailsOf]
  | cons p rest ih =>
    obtain ⟨h, t⟩ := p
    by_cases hh : h = n <;> simp [tailsOf, hh, ih, Prod.ext_iff] <;> tauto

theorem mem_headsOf {n x : String} {ps : List (String × String)} :
    x ∈ headsOf n ps ↔ (x, n) ∈ ps := by
  induction ps with
  | nil => simp [headsOf]
  | cons p rest ih =>
    obtain ⟨h, t⟩ := p
    by_cases ht : t = n <;> simp [headsOf, ht, ih, Prod.ext_iff] <;> tauto

theorem mem_refNames {n : String} {ps : List (String × String)} :
    n ∈ refNames ps ↔ (∃ t, (n, t) ∈ ps) ∨ ∃ h, (h, n) ∈ ps := by
  induction ps with
  | nil => simp [refNames]
  | cons p rest ih =>
    obtain ⟨h, t⟩ := p
    simp only [refNames, List.mem_cons, ih, Prod.ext_iff]
    constructor
    · rintro (rfl | rfl | (⟨t', ht'⟩ | ⟨h', hh'⟩))
      · exact Or.inl ⟨t, Or.inl ⟨rfl, rfl⟩⟩
      · exact Or.inr ⟨h, Or.inl ⟨rfl, rfl⟩⟩
      · exact Or.inl ⟨t', Or.inr ht'⟩
      · exact Or.inr ⟨h', Or.inr hh'⟩
    · rintro (⟨t', (⟨rfl, rfl⟩ | ht')⟩ | ⟨h', (⟨rfl, rfl⟩ | hh')⟩)
      · exact Or.inl rfl
      · exact Or.inr (Or.inr (Or.inl ⟨t', ht'⟩))
      · exact Or.inr (Or.inl rfl)
      · exact Or.inr (Or.inr (Or.inr ⟨h', hh'⟩))

theorem extendNode_nil (n : String) (node : Node) : extendNode n [] node = node := by
  simp [extendNode, tailsOf, headsOf]

theorem extendNode_append (n : String) (ps qs : List (String × String))
    (node : Node) :
    extendNode n (ps ++ qs) node = extendNode n qs (extendNode n ps node) := by
  simp [extendNode, tailsOf_append, headsOf_append]

theorem createIfAbsent_ok_char {parseURL : String → Option String}
    {st : BuildState} {name : String} {d : EntityDecl} {st1 : BuildState}
    (h : createIfAbsent parseURL st name d = .ok st1) :
    (alookup st.nodes name ≠ none ∧ st1 = st) ∨
    (alookup st.nodes name = none ∧ ∃ u, parseURL d.identifier = some u ∧
      st1.nodes = st.nodes ++
        [(name, { name := name, kind := d.kind, identifier := u,
                  key := st.nextKey, subs := [], sups := [] })] ∧
      st1.nextKey = st.nextKey + 1) := by
  unfold createIfAbsent at h
  cases hl : alookup st.nodes name with
  | some v =>
    rw [hl] at h
    injection h with h
    exact Or.inl ⟨by simp, h.symm⟩
  | none =>
    rw [hl] at h
    cases hp : parseURL d.identifier with
    | none => rw [hp] at h; cases h
    | some u =>
      rw [hp] at h
      injection h with h
      exact Or.inr ⟨rfl, u, rfl, by rw [← h], by rw [← h]⟩

theorem createIfAbsent_error {parseURL : String → Option String}
    {st : BuildState} {name : String} {d : EntityDecl} {er : Err}
    (h : createIfAbsent parseURL st name d = .error er) : er = .invalidURL := by
  unfold createIfAbsent at h
  cases hl : alookup st.nodes name with
  | some v => rw [hl] at h; cases h
  | none =>
    rw [hl] at h
    cases hp : parseURL d.identifier with
    | none => rw [hp] at h; injection h with h; exact h.symm
    | some u => rw [hp] at h; cases h

theorem createIfAbsent_lookup {parseURL : String → Option String}
    {st : BuildState} {name : String} {d : EntityDecl} {st1 : BuildState}
    (h : createIfAbsent parseURL st name d = .ok st1) (n : String) :
    (∀ node, alookup st.nodes n = some node → alookup st1.nodes n = some node) ∧
    (alookup st.nodes n = none → n ≠ name → alookup st1.nodes n = none) ∧
    (alookup st.nodes n = none → n = name →
      ∃ u k, parseURL d.identifier = some u ∧
        alookup st1.nodes n =
          some { name := n, kind := d.kind, identifier := u, key := k,
                 subs := [], sups := [] }) := by
  rcases createIfAbsent_ok_char h with ⟨hpres, rfl⟩ | ⟨habs, u, hu, hnodes, _⟩
  · refine ⟨fun node hn => hn, fun hn _ => hn, fun hn heq => ?_⟩
    subst heq
    exact absurd hn hpres
  · refine ⟨fun node hn => ?_, fun hn hne => ?_, fun hn heq => ?_⟩
    · rw [hnodes]
      exact alookup_append_of_some _ hn
    · rw [hnodes, alookup_append_of_none _ hn]
      have hne2 : name ≠ n := fun hx => hne hx.symm
      simp [alookup, hne2]
    · subst heq
      rw [hnodes, alookup_append_of_none _ hn]
      exact ⟨u, st.nextKey, hu, by simp [alookup]⟩

theorem createIfAbsent_keys {parseURL : String → Option String}
    {st : BuildState} {name : String} {d : EntityDecl} {st1 : BuildState}
    (h : createIfAbsent parseURL st name d = .ok st1)
    (hnd : (akeys st.nodes).Nodup) : (akeys st1.nodes).Nodup := by
  rcases createIfAbsent_ok_char h with ⟨_, rfl⟩ | ⟨habs, u, _, hnodes, _⟩
  · exact hnd
  · rw [hnodes, akeys_append]
    simp only [akeys, List.map_cons, List.map_nil]
    rw [List.nodup_append]
    refine ⟨hnd, List.nodup_singleton _, ?_⟩
    intro x hx hx1
    simp only [List.mem_singleton] at hx1
    subst hx1
    exact (alookup_eq_none.mp habs) hx

theorem alookup_addLink (st : BuildState) (hd tl n : String) :
    alookup (addLink st hd tl).nodes n =
      (alookup st.nodes n).map (fun node =>
        { node with subs := node.subs ++ (if hd = n then [tl] else []),
                    sups := node.sups ++ (if tl = n then [hd] else []) }) := by
  unfold addLink
  simp only [alookup_amap]
  by_cases h1 : n = tl <;> by_cases h2 : n = hd <;>
    cases ho : alookup st.nodes n <;>
    simp_all [eq_comm]

theorem akeys_addLink (st : BuildState) (hd tl : String) :
    akeys (addLink st hd tl).nodes = akeys st.nodes := by
  unfold addLink
  simp [akeys_amap]

theorem extendNode_single (n hd tl : String) (node : Node) :
    extendNode n [(hd, tl)] node =
      { node with subs := node.subs ++ (if hd = n then [tl] else []),
                  sups := node.sups ++ (if tl = n then [hd] else []) } := by
  by_cases h1 : hd = n <;> by_cases h2 : tl = n <;>
    simp [extendNode, tailsOf, headsOf, h1, h2]

theorem processEdge_ok_char {parseURL : String → Option String}
    {ents : List (String × EntityDecl)} {st : BuildState} {e : String}
    {st1 : BuildState} (h : processEdge parseURL ents st e = .ok st1) :
    ∃ hd tl dh dt,
      edgePair e = some (hd, tl) ∧
      alookup ents hd = some dh ∧ alookup ents tl = some dt ∧
      (∀ n node, alookup st.nodes n = some node →
        alookup st1.nodes n = some (extendNode n [(hd, tl)] node)) ∧
      (∀ n, alookup st.nodes n = none → n ≠ hd → n ≠ tl →
        alookup st1.nodes n = none) ∧
      (∀ n, alookup st.nodes n = none → n = hd ∨ n = tl →
        ∃ d u k, alookup ents n = some d ∧ parseURL d.identifier = some u ∧
          alookup st1.nodes n =
            some { name := n, kind := d.kind, identifier := u, key := k,
                   subs := tailsOf n [(hd, tl)], sups := headsOf n [(hd, tl)] }) := by
  unfold processEdge at h
  cases hsp : splitArrow e with
  | nil => rw [hsp] at h; cases h
  | cons s0 rest0 =>
    cases rest0 with
    | nil => rw [hsp] at h; cases h
    | cons s1 rest =>
      rw [hsp] at h
      simp only at h
      cases hdh : alookup ents (trimStr s0) with
      | none => rw [hdh] at h; cases h
      | some dh =>
        rw [hdh] at h
        simp only at h
        cases hdt : alookup ents (trimStr s1) with
        | none => rw [hdt] at h; cases h
        | some dt =>
          rw [hdt] at h
          simp only at h
          cases hc1 : createIfAbsent parseURL st (trimStr s0) dh with
          | error e1 => rw [hc1] at h; cases h
          | ok sa =>
            rw [hc1] at h
            simp only at h
            cases hc2 : createIfAbsent parseURL sa (trimStr s1) dt with
            | error e2 => rw [hc2] at h; cases h
            | ok sb =>
              rw [hc2] at h
              simp only at h
              injection h with h
              subst h
              refine ⟨trimStr s0, trimStr s1, dh, dt, ?_, hdh, hdt, ?_, ?_, ?_⟩
              · simp [edgePair, hsp]
              · intro n node hn
                have h1 := ((createIfAbsent_lookup hc1 n).1 node hn)
                have h2 := ((createIfAbsent_lookup hc2 n).1 _ h1)
                rw [alookup_addLink, h2, extendNode_single]
                rfl
              · intro n hn hne0 hne1
                have h1 := (createIfAbsent_lookup hc1 n).2.1 hn hne0
                have h2 := (createIfAbsent_lookup hc2 n).2.1 h1 hne1
                rw [alookup_addLink, h2]
                rfl
              · intro n hn hor
                rcases hor with h0 | h1
                · obtain ⟨u, k, hu, hl⟩ :=
                    (createIfAbsent_lookup hc1 n).2.2 hn h0
                  have h2 := (createIfAbsent_lookup hc2 n).1 _ hl
                  have h0s : trimStr s0 = n := h0.symm
                  refine ⟨dh, u, k, by rw [h0]; exact hdh, hu, ?_⟩
                  rw [alookup_addLink, h2]
                  by_cases htn : trimStr s1 = n <;>
                    simp [tailsOf, headsOf, htn, h0s]
                · by_cases hhn : trimStr s0 = n
                  · obtain ⟨u, k, hu, hl⟩ :=
                      (createIfAbsent_lookup hc1 n).2.2 hn hhn.symm
                    have h2 := (createIfAbsent_lookup hc2 n).1 _ hl
                    have h1s : trimStr s1 = n := h1.symm
                    refine ⟨dh, u, k, by rw [← hhn]; exact hdh, hu, ?_⟩
                    rw [alookup_addLink, h2]
                    simp [tailsOf, headsOf, hhn, h1s]
                  · have hx1 := (createIfAbsent_lookup hc1 n).2.1 hn
                      (fun hx => hhn hx.symm)
                    obtain ⟨u, k, hu, hl⟩ :=
                      (createIfAbsent_lookup hc2 n).2.2 hx1 h1
                    have h1s : trimStr s1 = n := h1.symm
                    refine ⟨dt, u, k, by rw [h1]; exact hdt, hu, ?_⟩
                    rw [alookup_addLink, hl]
                    simp [tailsOf, headsOf, hhn, h1s]

theorem processEdge_keys {parseURL : String → Option String}
    {ents : List (String × EntityDecl)} {st : BuildState} {e : String}
    {st1 : BuildState} (h : processEdge parseURL ents st e = .ok st1)
    (hnd : (akeys st.nodes).Nodup) : (akeys st1.nodes).Nodup := by
  unfold processEdge at h
  cases hsp : splitArrow e with
  | nil => rw [hsp] at h; cases h
  | cons s0 rest0 =>
    cases rest0 with
    | nil => rw [hsp] at h; cases h
    | cons s1 rest =>
      rw [hsp] at h
      simp only at h
      cases hdh : alookup ents (trimStr s0) with
      | none => rw [hdh] at h; cases h
      | some dh =>
        rw [hdh] at h
        simp only at h
        cases hdt : alookup ents (trimStr s1) with
        | none => rw [hdt] at h; cases h
        | some dt =>
          rw [hdt] at h
          simp only at h
          cases hc1 : createIfAbsent parseURL st (trimStr s0) dh with
          | error e1 => rw [hc1] at h; cases h
          | ok sa =>
            rw [hc1] at h
            simp only at h
            cases hc2 : createIfAbsent parseURL sa (trimStr s1) dt with
            | error e2 => rw [hc2] at h; cases h
            | ok sb =>
              rw [hc2] at h
              simp only at h
              injection h with h
              subst h
              rw [akeys_addLink]
              exact createIfAbsent_keys hc2 (createIfAbsent_keys hc1 hnd)

theorem processEdge_error_config {parseURL : String → Option String}
    {ents : List (String × EntityDecl)} {st : BuildState} {e : String}
    {er : Err} (hwf : (edgePair e).isSome = true)
    (h : processEdge parseURL ents st e = .error er) :
    er.isConfigError = true := by
  unfold processEdge at h
  unfold edgePair at hwf
  cases hsp : splitArrow e with
  | nil => rw [hsp] at hwf; cases hwf
  | cons s0 rest0 =>
    cases rest0 with
    | nil => rw [hsp] at hwf; cases hwf
    | cons s1 rest =>
      rw [hsp] at h
      simp only at h
      cases hdh : alookup ents (trimStr s0) with
      | none => rw [hdh] at h; injection h with h; subst h; rfl
      | some dh =>
        rw [hdh] at h
        simp only at h
        cases hdt : alookup ents (trimStr s1) with
        | none => rw [hdt] at h; injection h with h; subst h; rfl
        | some dt =>
          rw [hdt] at h
          simp only at h
          cases hc1 : createIfAbsent parseURL st (trimStr s0) dh with
          | error e1 =>
            rw [hc1] at h
            simp only at h
            injection h with h
            subst h
            rw [createIfAbsent_error hc1]
            rfl
          | ok sa =>
            rw [hc1] at h
            simp only at h
            cases hc2 : createIfAbsent parseURL sa (trimStr s1) dt with
            | error e2 =>
              rw [hc2] at h
              simp only at h
              injection h with h
              subst h
              rw [createIfAbsent_error hc2]
              rfl
            | ok sb => rw [hc2] at h; cases h

theorem edgePairs_cons_of_some {e : String} {p : String × String}
    (h : edgePair e = some p) (es : List String) :
    edgePairs (e :: es) = p :: edgePairs es := by
  simp [edgePairs, List.filterMap_cons, h]

theorem buildFold_char {parseURL : String → Option String}
    {ents : List (String × EntityDecl)} :
    ∀ {es : List String} {st st' : BuildState},
      buildFold parseURL ents st es = .ok st' → ∀ n,
      (∀ node, alookup st.nodes n = some node →
        alookup st'.nodes n = some (extendNode n (edgePairs es) node)) ∧
      (alookup st.nodes n = none →
        (alookup st'.nodes n = none ∧ n ∉ refNames (edgePairs es)) ∨
        (∃ d u k, alookup ents n = some d ∧ parseURL d.identifier = some u ∧
          n ∈ refNames (edgePairs es) ∧
          alookup st'.nodes n =
            some { name := n, kind := d.kind, identifier := u, key := k,
                   subs := tailsOf n (edgePairs es),
                   sups := headsOf n (edgePairs es) })) := by
  intro es
  induction es with
  | nil =>
    intro st st' h n
    unfold buildFold at h
    injection h with h
    subst h
    constructor
    · intro node hn
      have he : edgePairs ([] : List String) = [] := rfl
      rw [he, extendNode_nil]
      exact hn
    · intro hn
      exact Or.inl ⟨hn, by simp [edgePairs, refNames]⟩
  | cons e es ih =>
    intro st st' h n
    unfold buildFold at h
    cases hp : processEdge parseURL ents st e with
    | error er => rw [hp] at h; cases h
    | ok s1 =>
      rw [hp] at h
      simp only at h
      obtain ⟨hd, tl, dh, dt, hpair, hdh, hdt, hf1, hf2, hf3⟩ :=
        processEdge_ok_char hp
      have hps : edgePairs (e :: es) = (hd, tl) :: edgePairs es :=
        edgePairs_cons_of_some hpair es
      constructor
      · intro node hn
        have h1 := hf1 n node hn
        have h2 := (ih h n).1 _ h1
        rw [hps]
        rw [← extendNode_append n [(hd, tl)] (edgePairs es) node] at h2
        exact h2
      · intro hn
        rw [hps]
        by_cases hor : n = hd ∨ n = tl
        · obtain ⟨d, u, k, hde, hu, hl⟩ := hf3 n hn hor
          have h2 := (ih h n).1 _ hl
          right
          refine ⟨d, u, k, hde, hu, ?_, ?_⟩
          · rcases hor with rfl | rfl <;> simp [refNames]
          · rw [h2]
            have : extendNode n (edgePairs es)
                { name := n, kind := d.kind, identifier := u, key := k,
                  subs := tailsOf n [(hd, tl)], sups := headsOf n [(hd, tl)] } =
                { name := n, kind := d.kind, identifier := u, key := k,
                  subs := tailsOf n ((hd, tl) :: edgePairs es),
                  sups := headsOf n ((hd, tl) :: edgePairs es) } := by
              show extendNode n (edgePairs es)
                  { name := n, kind := d.kind, identifier := u, key := k,
                    subs := tailsOf n [(hd, tl)], sups := headsOf n [(hd, tl)] } = _
              rw [extendNode]
              simp only [← tailsOf_append, ← headsOf_append,
                List.singleton_append]
            rw [this]
        · push_neg at hor
          obtain ⟨hne0, hne1⟩ := hor
          have h1 := hf2 n hn hne0 hne1
          rcases (ih h n).2 h1 with ⟨hnone, hnmem⟩ | ⟨d, u, k, hde, hu, hmem, hl⟩
          · left
            refine ⟨hnone, ?_⟩
            simp [refNames, hne0, hne1, hnmem]
          · right
            refine ⟨d, u, k, hde, hu, ?_, ?_⟩
            · simp [refNames, hmem]
            · rw [hl]
              have hd0 : hd ≠ n := fun hx => hne0 hx.symm
              have ht1 : tl ≠ n := fun hx => hne1 hx.symm
              simp [tailsOf, headsOf, hd0, ht1]

theorem buildFold_keys {parseURL : String → Option String}
    {ents : List (String × EntityDecl)} :
    ∀ {es : List String} {st st' : BuildState},
      buildFold parseURL ents st es = .ok st' →
      (akeys st.nodes).Nodup → (akeys st'.nodes).Nodup := by
  intro es
  induction es with
  | nil =>
    intro st st' h hnd
    unfold buildFold at h
    injection h with h
    subst h
    exact hnd
  | cons e es ih =>
    intro st st' h hnd
    unfold buildFold at h
    cases hp : processEdge parseURL ents st e with
    | error er => rw [hp] at h; cases h
    | ok s1 =>
      rw [hp] at h
      simp only at h
      exact ih h (processEdge_keys hp hnd)

theorem buildFold_edges_ok {parseURL : String → Option String}
    {ents : List (String × EntityDecl)} :
    ∀ {es : List String} {st st' : BuildState},
      buildFold parseURL ents st es = .ok st' →
      ∀ e ∈ es, ∃ hd tl dh dt, edgePair e = some (hd, tl) ∧
        alookup ents hd = some dh ∧ alookup ents tl = some dt := by
  intro es
  induction es with
  | nil => intro st st' _ e he; cases he
  | cons e0 es ih =>
    intro st st' h e he
    unfold buildFold at h
    cases hp : processEdge parseURL ents st e0 with
    | error er => rw [hp] at h; cases h
    | ok s1 =>
      rw [hp] at h
      simp only at h
      rcases List.mem_cons.mp he with rfl | he2
      · obtain ⟨hd, tl, dh, dt, hpair, hdh, hdt, _, _, _⟩ := processEdge_ok_char hp
        exact ⟨hd, tl, dh, dt, hpair, hdh, hdt⟩
      · exact ih h e he2

theorem buildFold_error_config {parseURL : String → Option String}
    {ents : List (String × EntityDecl)} :
    ∀ {es : List String} {st : BuildState} {er : Err},
      (∀ e ∈ es, (edgePair e).isSome = true) →
      buildFold parseURL ents st es = .error er →
      er.isConfigError = true := by
  intro es
  induction es with
  | nil => intro st er _ h; cases h
  | cons e es ih =>
    intro st er hwf h
    unfold buildFold at h
    cases hp : processEdge parseURL ents st e with
    | error er2 =>
      rw [hp] at h
      injection h with h
      subst h
      exact processEdge_error_config (hwf e (List.mem_cons_self _ _)) hp
    | ok s1 =>
      rw [hp] at h
      simp only at h
      exact ih (fun e2 he2 => hwf e2 (List.mem_cons_of_mem _ he2)) h

theorem checkEntities_ok_iff {ents : List (String × EntityDecl)} :
    checkEntities ents = .ok () ↔
      ∀ k d, (k, d) ∈ ents → d.kind ≠ "" ∧ d.identifier ≠ "" := by
  induction ents with
  | nil => simp [checkEntities]
  | cons p rest ih =>
    obtain ⟨k0, d0⟩ := p
    by_cases hk : d0.kind = ""
    · simp only [checkEntities, if_pos hk]
      constructor
      · intro hcontra; cases hcontra
      · intro hall
        exact absurd hk (hall k0 d0 (List.mem_cons_self _ _)).1
    · by_cases hi : d0.identifier = ""
      · simp only [checkEntities, if_neg hk, if_pos hi]
        constructor
        · intro hcontra; cases hcontra
        · intro hall
          exact absurd hi (hall k0 d0 (List.mem_cons_self _ _)).2
      · simp only [checkEntities, if_neg hk, if_neg hi, ih]
        constructor
        · intro h k d hm
          rcases List.mem_cons.mp hm with h1 | h2
          · cases h1
            exact ⟨hk, hi⟩
          · exact h k d h2
        · intro h k d hm
          exact h k d (List.mem_cons_of_mem _ hm)

theorem checkEntities_error_config {ents : List (String × EntityDecl)} {er : Err}
    (h : checkEntities ents = .error er) : er.isConfigError = true := by
  induction ents with
  | nil => cases h
  | cons p rest ih =>
    obtain ⟨k0, d0⟩ := p
    by_cases hk : d0.kind = ""
    · simp [checkEntities, hk] at h
      subst h
      rfl
    · by_cases hi : d0.identifier = ""
      · simp [checkEntities, hk, hi] at h
        subst h
        rfl
      · simp only [checkEntities, if_neg hk, if_neg hi] at h
        exact ih h

theorem mustParseConfig_ok_char {parseURL : String → Option String}
    {ents : List (String × EntityDecl)} {edges : List String}
    {m : List (String × Node)}
    (h : mustParseConfig parseURL ents edges = .ok m) :
    checkEntities ents = .ok () ∧
    ((akeys m).Nodup) ∧
    (∀ n, (alookup m n).isSome = true ↔ n ∈ refNames (edgePairs edges)) ∧
    (∀ n node, alookup m n = some node →
      ∃ d, alookup ents n = some d ∧ node.name = n ∧ node.kind = d.kind ∧
        parseURL d.identifier = some node.identifier ∧
        node.subs = tailsOf n (edgePairs edges) ∧
        node.sups = headsOf n (edgePairs edges)) := by
  unfold mustParseConfig at h
  cases hc : checkEntities ents with
  | error e => rw [hc] at h; cases h
  | ok u =>
    rw [hc] at h
    simp only at h
    cases hb : buildFold parseURL ents { nodes := [], nextKey := 0 } edges with
    | error e => rw [hb] at h; cases h
    | ok st =>
      rw [hb] at h
      injection h with h
      subst h
      have hchar := fun n => buildFold_char hb n
      have hempty : ∀ n, alookup ({ nodes := [], nextKey := 0 } : BuildState).nodes n = none := by
        intro n; rfl
      refine ⟨rfl, ?_, ?_, ?_⟩
      · exact buildFold_keys hb (by simp [akeys])
      · intro n
        rcases (hchar n).2 (hempty n) with ⟨hnone, hnmem⟩ | ⟨d, u2, k, _, _, hmem, hl⟩
        · rw [hnone]
          simp [hnmem]
        · rw [hl]
          simp [hmem]
      · intro n node hl
        rcases (hchar n).2 (hempty n) with ⟨hnone, _⟩ | ⟨d, u2, k, hde, hu, _, hl2⟩
        · rw [hnone] at hl; cases hl
        · rw [hl2] at hl
          injection hl with hl
          subst hl
          exact ⟨d, hde, rfl, rfl, by rw [hu], rfl, rfl⟩

theorem mustParseConfig_edges_ok {parseURL : String → Option String}
    {ents : List (String × EntityDecl)} {edges : List String}
    {m : List (String × Node)}
    (h : mustParseConfig parseURL ents edges = .ok m) :
    ∀ e ∈ edges, ∃ hd tl dh dt, edgePair e = some (hd, tl) ∧
      alookup ents hd = some dh ∧ alookup ents tl = some dt := by
  unfold mustParseConfig at h
  cases hc : checkEntities ents with
  | error e => rw [hc] at h; cases h
  | ok u =>
    rw [hc] at h
    simp only at h
    cases hb : buildFold parseURL ents { nodes := [], nextKey := 0 } edges with
    | error e => rw [hb] at h; cases h
    | ok st => exact buildFold_edges_ok hb

theorem mustParseConfig_error_config {parseURL : String → Option String}
    {ents : List (String × EntityDecl)} {edges : List String} {er : Err}
    (hwf : ∀ e ∈ edges, (edgePair e).isSome = true)
    (h : mustParseConfig parseURL ents edges = .error er) :
    er.isConfigError = true := by
  unfold mustParseConfig at h
  cases hc : checkEntities ents with
  | error e2 =>
    rw [hc] at h
    injection h with h
    subst h
    exact checkEntities_error_config hc
  | ok u =>
    rw [hc] at h
    simp only at h
    cases hb : buildFold parseURL ents { nodes := [], nextKey := 0 } edges with
    | error e2 =>
      rw [hb] at h
      injection h with h
      subst h
      exact buildFold_error_config hwf hb
    | ok st => rw [hb] at h; cases h

theorem alookup_of_mem_nodup {α : Type} {l : List (String × α)} {n : String}
    {v : α} (hnd : (akeys l).Nodup) (hm : (n, v) ∈ l) :
    alookup l n = some v := by
  induction l with
  | nil => cases hm
  | cons p rest ih =>
    obtain ⟨k, w⟩ := p
    rcases List.mem_cons.mp hm with h1 | h2
    · cases h1
      simp [alookup]
    · have hk : k ∉ akeys rest := by
        have := hnd
        simp only [akeys, List.map_cons, List.nodup_cons] at this
        exact this.1
      have hne : k ≠ n := by
        intro he
        subst he
        exact hk (List.mem_map_of_mem Prod.fst h2)
      simp only [alookup, if_neg hne]
      refine ih ?_ h2
      have := hnd
      simp only [akeys, List.map_cons, List.nodup_cons] at this
      exact this.2

theorem registerFold_append {hostnameOf : String → String} :
    ∀ {m : List (String × Node)} {table table' : List (String × String)},
      registerFold hostnameOf m table = .ok table' →
      ∃ ext, table' = table ++ ext := by
  intro m
  induction m with
  | nil =>
    intro table table' h
    injection h with h
    subst h
    exact ⟨[], by simp⟩
  | cons p rest ih =>
    intro table table' h
    obtain ⟨name, node⟩ := p
    unfold registerFold at h
    simp only at h
    cases hl : alookup table (hostnameOf node.identifier ++ "/") with
    | some v => rw [hl] at h; cases h
    | none =>
      rw [hl] at h
      simp only at h
      obtain ⟨ext, hext⟩ := ih h
      exact ⟨(hostnameOf node.identifier ++ "/", name) :: ext, by
        rw [hext, List.append_assoc]; rfl⟩

theorem registerFold_error {hostnameOf : String → String} :
    ∀ {m : List (String × Node)} {table : List (String × String)} {er : Err},
      registerFold hostnameOf m table = .error er →
      er = .panicDuplicatePattern := by
  intro m
  induction m with
  | nil => intro table er h; cases h
  | cons p rest ih =>
    intro table er h
    obtain ⟨name, node⟩ := p
    unfold registerFold at h
    simp only at h
    cases hl : alookup table (hostnameOf node.identifier ++ "/") with
    | some v =>
      rw [hl] at h
      injection h with h
      exact h.symm
    | none =>
      rw [hl] at h
      simp only at h
      exact ih h

theorem registerFold_lookup {hostnameOf : String → String} :
    ∀ {m : List (String × Node)} {table table' : List (String × String)},
      registerFold hostnameOf m table = .ok table' →
      ∀ n node, (n, node) ∈ m →
        alookup table' (hostnameOf node.identifier ++ "/") = some n := by
  intro m
  induction m with
  | nil => intro table table' _ n node hm; cases hm
  | cons p rest ih =>
    intro table table' h n node hm
    obtain ⟨name0, node0⟩ := p
    unfold registerFold at h
    simp only at h
    cases hl : alookup table (hostnameOf node0.identifier ++ "/") with
    | some v => rw [hl] at h; cases h
    | none =>
      rw [hl] at h
      simp only at h
      rcases List.mem_cons.mp hm with h1 | h2
      · cases h1
        obtain ⟨ext, hext⟩ := registerFold_append h
        rw [hext, List.append_assoc, alookup_append_of_none _ hl]
        simp [alookup]
      · exact ih h n node h2

theorem startup_ok_char {parseURL : String → Option String}
    {hostnameOf : String → String} {ents : List (String × EntityDecl)}
    {edges : List String} {server : Server}
    (h : startup parseURL hostnameOf ents edges = .ok server) :
    mustParseConfig parseURL ents edges = .ok server.nodes ∧
    registerAll hostnameOf server.nodes = .ok server.mux ∧
    materialize server.nodes = .ok server.stores := by
  unfold startup at h
  cases hp : mustParseConfig parseURL ents edges with
  | error e => rw [hp] at h; cases h
  | ok m =>
    rw [hp] at h
    simp only at h
    cases hr : registerAll hostnameOf m with
    | error e => rw [hr] at h; cases h
    | ok table =>
      rw [hr] at h
      simp only at h
      cases hm : materialize m with
      | error e => rw [hm] at h; cases h
      | ok stores =>
        rw [hm] at h
        injection h with h
        subst h
        exact ⟨rfl, hr, hm⟩

theorem registerAll_lookup {hostnameOf : String → String}
    {m : List (String × Node)} {table : List (String × String)}
    (h : registerAll hostnameOf m = .ok table) :
    ∀ n node, (n, node) ∈ m →
      alookup table (hostnameOf node.identifier ++ "/") = some n :=
  registerFold_lookup h

theorem registerAll_hostname_inj {hostnameOf : String → String}
    {m : List (String × Node)} {table : List (String × String)}
    (h : registerAll hostnameOf m = .ok table) :
    ∀ n1 node1 n2 node2, (n1, node1) ∈ m → (n2, node2) ∈ m →
      hostnameOf node1.identifier = hostnameOf node2.identifier → n1 = n2 := by
  intro n1 node1 n2 node2 h1 h2 heq
  have l1 := registerAll_lookup h n1 node1 h1
  have l2 := registerAll_lookup h n2 node2 h2
  rw [heq] at l1
  rw [l1] at l2
  exact Option.some.inj l2

theorem materializeFold_error {m : List (String × Node)} :
    ∀ {l : List (String × Node)} {er : Err},
      materializeFold m l = .error er → er = .panicNilStore := by
  intro l
  induction l with
  | nil => intro er h; cases h
  | cons p rest ih =>
    intro er h
    obtain ⟨name0, node0⟩ := p
    unfold materializeFold at h
    by_cases hts : hasTrustStore node0.kind
    · rw [if_pos hts] at h
      cases hr : materializeFold m rest with
      | error e2 =>
        rw [hr] at h
        injection h with h
        subst h
        exact ih hr
      | ok stores => rw [hr] at h; cases h
    · rw [if_neg hts] at h
      by_cases hemp : node0.subs.isEmpty
      · rw [if_pos hemp] at h
        exact ih h
      · rw [if_neg hemp] at h
        injection h with h
        exact h.symm

theorem materializeFold_bad {m : List (String × Node)} :
    ∀ {l : List (String × Node)} {n : String} {node : Node},
      (n, node) ∈ l → hasTrustStore node.kind = false → node.subs ≠ [] →
      materializeFold m l = .error .panicNilStore := by
  intro l
  induction l with
  | nil => intro n node hm; cases hm
  | cons p rest ih =>
    intro n node hm hts hne
    obtain ⟨name0, node0⟩ := p
    unfold materializeFold
    rcases List.mem_cons.mp hm with h1 | h2
    · cases h1
      rw [hts]
      simp only [Bool.false_eq_true, if_false]
      rw [if_neg (by simpa [List.isEmpty_iff] using hne)]
    · by_cases hts0 : hasTrustStore node0.kind
      · rw [if_pos hts0, ih h2 hts hne]
      · rw [if_neg hts0]
        by_cases hemp : node0.subs.isEmpty
        · rw [if_pos hemp]
          exact ih h2 hts hne
        · rw [if_neg hemp]

theorem materializeFold_ok_exists {m : List (String × Node)} :
    ∀ {l : List (String × Node)},
      (∀ n node, (n, node) ∈ l → node.subs ≠ [] → hasTrustStore node.kind = true) →
      ∃ stores, materializeFold m l = .ok stores := by
  intro l
  induction l with
  | nil => intro _; exact ⟨[], rfl⟩
  | cons p rest ih =>
    intro hall
    obtain ⟨name0, node0⟩ := p
    obtain ⟨stores0, hrec⟩ :=
      ih (fun n node hm => hall n node (List.mem_cons_of_mem _ hm))
    unfold materializeFold
    by_cases hts : hasTrustStore node0.kind
    · rw [if_pos hts, hrec]
      exact ⟨(name0, writeSubs m node0.subs []) :: stores0, rfl⟩
    · rw [if_neg hts]
      have hemp : node0.subs.isEmpty := by
        by_contra hne
        exact hts (hall name0 node0 (List.mem_cons_self _ _)
          (by simpa [List.isEmpty_iff] using hne))
      rw [if_pos hemp]
      exact ⟨stores0, hrec⟩

theorem materializeFold_lookup {m : List (String × Node)} :
    ∀ {l : List (String × Node)} {stores : List (String × List (String × SubordinateInfo))},
      materializeFold m l = .ok stores → (akeys l).Nodup →
      ∀ n node, (n, node) ∈ l → hasTrustStore node.kind = true →
        alookup stores n = some (writeSubs m node.subs []) := by
  intro l
  induction l with
  | nil => intro stores _ _ n node hm; cases hm
  | cons p rest ih =>
    intro stores h hnd n node hm hts
    obtain ⟨name0, node0⟩ := p
    have hnd0 : name0 ∉ akeys rest := by
      have := hnd
      simp only [akeys, List.map_cons, List.nodup_cons] at this
      exact this.1
    have hndrest : (akeys rest).Nodup := by
      have := hnd
      simp only [akeys, List.map_cons, List.nodup_cons] at this
      exact this.2
    unfold materializeFold at h
    rcases List.mem_cons.mp hm with h1 | h2
    · cases h1
      rw [if_pos hts] at h
      cases hr : materializeFold m rest with
      | error e2 => rw [hr] at h; cases h
      | ok stores0 =>
        rw [hr] at h
        injection h with h
        subst h
        simp [alookup]
    · have hne : name0 ≠ n := by
        intro he
        subst he
        exact hnd0 (List.mem_map_of_mem Prod.fst h2)
      by_cases hts0 : hasTrustStore node0.kind
      · rw [if_pos hts0] at h
        cases hr : materializeFold m rest with
        | error e2 => rw [hr] at h; cases h
        | ok stores0 =>
          rw [hr] at h
          injection h with h
          subst h
          simp only [alookup, if_neg hne]
          exact ih hr hndrest n node h2 hts
      · rw [if_neg hts0] at h
        by_cases hemp : node0.subs.isEmpty
        · rw [if_pos hemp] at h
          exact ih h hndrest n node h2 hts
        · rw [if_neg hemp] at h
          cases h

theorem writeSubs_lookup {m : List (String × Node)} {C : Node} :
    ∀ (subs : List String) (store : List (String × SubordinateInfo)),
      (∀ c2 C2, c2 ∈ subs → alookup m c2 = some C2 →
        C2.identifier = C.identifier → C2 = C) →
      ((∃ c, c ∈ subs ∧ alookup m c = some C) ∨
        alookup store C.identifier = some (subInfo C)) →
      alookup (writeSubs m subs store) C.identifier = some (subInfo C) := by
  intro subs
  induction subs with
  | nil =>
    intro store _ hprev
    rcases hprev with ⟨c, hc, _⟩ | hst
    · cases hc
    · exact hst
  | cons c0 rest ih =>
    intro store hinj hprev
    unfold writeSubs
    cases hc0 : alookup m c0 with
    | none =>
      refine ih store (fun c2 C2 hc2 => hinj c2 C2 (List.mem_cons_of_mem _ hc2)) ?_
      rcases hprev with ⟨c, hc, hcl⟩ | hst
      · rcases List.mem_cons.mp hc with rfl | hc2
        · rw [hc0] at hcl; cases hcl
        · exact Or.inl ⟨c, hc2, hcl⟩
      · exact Or.inr hst
    | some C0 =>
      refine ih _ (fun c2 C2 hc2 => hinj c2 C2 (List.mem_cons_of_mem _ hc2)) ?_
      by_cases hid : C0.identifier = C.identifier
      · have : C0 = C := hinj c0 C0 (List.mem_cons_self _ _) hc0 hid
        subst this
        exact Or.inr (by simp [kvWrite, alookup, hid])
      · rcases hprev with ⟨c, hc, hcl⟩ | hst
        · rcases List.mem_cons.mp hc with rfl | hc2
          · rw [hc0] at hcl
            injection hcl with hcl
            subst hcl
            exact absurd rfl hid
          · exact Or.inl ⟨c, hc2, hcl⟩
        · exact Or.inr (by simp [kvWrite, alookup, hid, hst])

/-- The node the demo build creates for `TA`. -/
def demoTA : Node :=
  { name := "TA", kind := "trust-anchor", identifier := "https://ta.example.com",
    key := 0, subs := ["IM", "OP"], sups := [] }

/-- The node the demo build creates for `IM`. -/
def demoIM : Node :=
  { name := "IM", kind := "intermediate", identifier := "https://im.example.com",
    key := 1, subs := ["OP"], sups := ["TA"] }

/-- The node the demo build creates for `OP`. -/
def demoOP : Node :=
  { name := "OP", kind := "leaf", identifier := "https://op.example.com",
    key := 2, subs := [], sups := ["TA", "IM"] }

/-- The arena the demo build produces. -/
def demoNodes : List (String × Node) :=
  [("TA", demoTA), ("IM", demoIM), ("OP", demoOP)]

/-- The dispatch table the demo registration produces. -/
def demoMux : List (String × String) :=
  [("ta.example.com/", "TA"), ("im.example.com/", "IM"), ("op.example.com/", "OP")]

/-- The trust stores the demo materialization produces. -/
def demoStores : List (String × List (String × SubordinateInfo)) :=
  [("TA",
    [("https://op.example.com",
      { jwks := 2, entityTypes := [], entityID := "https://op.example.com",
        status := .active }),
     ("https://im.example.com",
      { jwks := 1, entityTypes := [], entityID := "https://im.example.com",
        status := .active })]),
   ("IM",
    [("https://op.example.com",
      { jwks := 2, entityTypes := [], entityID := "https://op.example.com",
        status := .active })])]

/-- The server state the demo startup produces. -/
def demoServer : Server :=
  { nodes := demoNodes, mux := demoMux, stores := demoStores }

theorem splitArrowAux_noArrow :
    ∀ (l acc : List Char), containsArrowChars l = false →
      splitArrowAux l acc = [acc.reverse ++ l]
  | [], acc, _ => by simp [splitArrowAux]
  | [c], acc, _ => by simp [splitArrowAux]
  | c1 :: c2 :: rest, acc, h => by
    have hcond : ¬(c1 = '-' ∧ c2 = '>') := by
      intro hc
      unfold containsArrowChars at h
      rw [if_pos hc] at h
      cases h
    unfold containsArrowChars at h
    rw [if_neg hcond] at h
    unfold splitArrowAux
    rw [if_neg hcond, splitArrowAux_noArrow (c2 :: rest) (c1 :: acc) h]
    simp

theorem splitArrow_noArrow {e : String} (h : containsArrowChars e.toList = false) :
    splitArrow e = [String.mk e.toList] := by
  unfold splitArrow
  rw [splitArrowAux_noArrow _ _ h]
  simp

/-- C10: edge parsing splits on `"->"` and unconditionally indexes the first
two pieces.  First half: an edge string without the separator (the character
scan `containsArrowChars` finds no occurrence, so `strings.Split` returns a
single piece) makes the edge loop panic with an out-of-range index — a panic,
not a `log.Fatalf` configuration error.  Second half: the loop's behaviour
depends only on the first two pieces of the split, so everything after the
second separator is silently ignored. -/
theorem edge_parsing_split_panic :
    (∀ (parseURL : String → Option String) (ents : List (String × EntityDecl))
        (st : BuildState) (e : String),
      containsArrowChars e.toList = false →
      processEdge parseURL ents st e = .error .panicIndexOutOfRange ∧
      Err.isConfigError .panicIndexOutOfRange = false) ∧
    (∀ (parseURL : String → Option String) (ents : List (String × EntityDecl))
        (st : BuildState) (e e2 : String),
      2 ≤ (splitArrow e).length →
      (splitArrow e).take 2 = (splitArrow e2).take 2 →
      processEdge parseURL ents st e = processEdge parseURL ents st e2) := by
  constructor
  · intro parseURL ents st e hno
    refine ⟨?_, rfl⟩
    unfold processEdge
    rw [splitArrow_noArrow hno]
  · intro parseURL ents st e e2 hlen htake
    cases hsp : splitArrow e with
    | nil => rw [hsp] at hlen; cases hlen
    | cons s0 r0 =>
      cases r0 with
      | nil => rw [hsp] at hlen; simp at hlen
      | cons s1 rest =>
        rw [hsp] at htake
        cases hsp2 : splitArrow e2 with
        | nil => rw [hsp2] at htake; cases htake
        | cons t0 r2 =>
          cases r2 with
          | nil => rw [hsp2] at htake; simp [List.take] at htake
          | cons t1 rest2 =>
            rw [hsp2] at htake
            simp only [List.take] at htake
            injection htake with he0 htake
            injection htake with he1 _
            subst he0
            subst he1
            unfold processEdge
            rw [hsp, hsp2]

/-- C2: graph symmetry — in the arena the topology builder returns, `b` is in
`a`'s subordinates exactly when `a` is in `b`'s superiors, and every later
startup step (handler registration, trust materialization) leaves the arena
unchanged, so the invariant persists. -/
theorem graph_symmetry (parseURL : String → Option String)
    (hostnameOf : String → String) (ents : List (String × EntityDecl))
    (edges : List String) (m : List (String × Node))
    (h : mustParseConfig parseURL ents edges = .ok m) :
    (∀ a b A B, alookup m a = some A → alookup m b = some B →
      (b ∈ A.subs ↔ a ∈ B.sups)) ∧
    (∀ server, startup parseURL hostnameOf ents edges = .ok server →
      server.nodes = m) := by
  obtain ⟨_, _, _, hchar⟩ := mustParseConfig_ok_char h
  constructor
  · intro a b A B hA hB
    obtain ⟨dA, _, _, _, _, hsubsA, _⟩ := hchar a A hA
    obtain ⟨dB, _, _, _, _, _, hsupsB⟩ := hchar b B hB
    rw [hsubsA, hsupsB, mem_tailsOf, mem_headsOf]
  · intro server hs
    have hx := (startup_ok_char hs).1
    rw [h] at hx
    injection hx with hx
    exact hx.symm

/-- C2 witness: on the demo configuration, `IM ∈ TA.subs ↔ TA ∈ IM.sups`, and
the demo startup returns the built arena unchanged. -/
theorem graph_symmetry_witness :
    ("IM" ∈ demoTA.subs ↔ "TA" ∈ demoIM.sups) ∧ demoServer.nodes = demoNodes :=
  ⟨(graph_symmetry demoParse demoHost demoEnts demoEdges demoNodes rfl).1
      "TA" "IM" demoTA demoIM rfl rfl,
   (graph_symmetry demoParse demoHost demoEnts demoEdges demoNodes rfl).2
      demoServer rfl⟩

/-- C6: a signing keypair is generated at most once per entity name.  First
half: resolving a name already present in the arena returns the arena
completely unchanged (the existing node with its original keypair; the
generation counter does not move, so no new keypair is generated).  Second
half: once a name is in the arena, the rest of the edge loop preserves its
keypair (and kind and identifier). -/
theorem keypair_generated_once (parseURL : String → Option String)
    (ents : List (String × EntityDecl)) :
    (∀ (st : BuildState) (name : String) (d : EntityDecl) (node : Node),
      alookup st.nodes name = some node →
      createIfAbsent parseURL st name d = .ok st) ∧
    (∀ (es : List String) (st st' : BuildState) (n : String) (node : Node),
      alookup st.nodes n = some node →
      buildFold parseURL ents st es = .ok st' →
      ∃ node', alookup st'.nodes n = some node' ∧ node'.key = node.key ∧
        node'.kind = node.kind ∧ node'.identifier = node.identifier) := by
  constructor
  · intro st name d node h
    unfold createIfAbsent
    rw [h]
  · intro es st st' n node h hb
    exact ⟨_, (buildFold_char hb n).1 node h, rfl, rfl, rfl⟩

/-- C6 witness: re-resolving `TA` against an arena that already holds it
returns the arena unchanged, and an empty remaining edge list preserves its
keypair. -/
theorem keypair_generated_once_witness :
    createIfAbsent demoParse { nodes := demoNodes, nextKey := 3 } "TA"
        { kind := "trust-anchor", identifier := "https://ta.example.com" } =
      .ok { nodes := demoNodes, nextKey := 3 } ∧
    (∃ node', alookup demoNodes "TA" = some node' ∧ node'.key = demoTA.key ∧
      node'.kind = demoTA.kind ∧ node'.identifier = demoTA.identifier) :=
  ⟨(keypair_generated_once demoParse demoEnts).1
      { nodes := demoNodes, nextKey := 3 } "TA" _ demoTA rfl,
   (keypair_generated_once demoParse demoEnts).2 []
      { nodes := demoNodes, nextKey := 3 } { nodes := demoNodes, nextKey := 3 }
      "TA" demoTA rfl rfl⟩

/-- C10 witness: the edge `"junk"` (no separator) panics with an out-of-range
index, and `"TA -> IM->x"` behaves exactly like `"TA -> IM"` — the text after
the second separator is ignored. -/
theorem edge_parsing_split_panic_witness :
    (processEdge demoParse demoEnts { nodes := [], nextKey := 0 } "junk" =
        .error .panicIndexOutOfRange ∧
      Err.isConfigError .panicIndexOutOfRange = false) ∧
    processEdge demoParse demoEnts { nodes := [], nextKey := 0 } "TA -> IM" =
      processEdge demoParse demoEnts { nodes := [], nextKey := 0 } "TA -> IM->x" :=
  ⟨edge_parsing_split_panic.1 demoParse demoEnts { nodes := [], nextKey := 0 }
      "junk" (by decide),
   edge_parsing_split_panic.2 demoParse demoEnts { nodes := [], nextKey := 0 }
      "TA -> IM" "TA -> IM->x" (by decide) (by decide)⟩

/-- C7: the arena's domain is exactly the names referenced by at least one
edge — one node per referenced name (the key occurs once), no node for an
unreferenced name — and hence the arena is no larger than the entity
declaration list. -/
theorem node_map_domain (parseURL : String → Option String)
    (ents : List (String × EntityDecl)) (edges : List String)
    (m : List (String × Node))
    (h : mustParseConfig parseURL ents edges = .ok m) :
    (∀ n, (alookup m n).isSome = true ↔ n ∈ refNames (edgePairs edges)) ∧
    (∀ n, n ∈ refNames (edgePairs edges) → (akeys m).count n = 1) ∧
    m.length ≤ ents.length := by
  obtain ⟨_, hmnd, hdom, hchar⟩ := mustParseConfig_ok_char h
  refine ⟨hdom, ?_, ?_⟩
  · intro n hn
    exact List.count_eq_one_of_mem hmnd (alookup_isSome_iff.mp ((hdom n).mpr hn))
  · have hsub : akeys m ⊆ akeys ents := by
      intro n hn
      obtain ⟨node, hnode⟩ :=
        Option.isSome_iff_exists.mp (alookup_isSome_iff.mpr hn)
      obtain ⟨d, hd, _⟩ := hchar n node hnode
      exact List.mem_map_of_mem Prod.fst (alookup_mem hd)
    have hlen := (hmnd.subperm hsub).length_le
    simpa [akeys] using hlen

/-- C7 witness: on the demo configuration every referenced name is present
exactly once and the arena is no larger than the declaration list. -/
theorem node_map_domain_witness :
    ((alookup demoNodes "OP").isSome = true ↔
      "OP" ∈ refNames (edgePairs demoEdges)) ∧
    (akeys demoNodes).count "TA" = 1 ∧
    demoNodes.length ≤ demoEnts.length :=
  ⟨(node_map_domain demoParse demoEnts demoEdges demoNodes rfl).1 "OP",
   (node_map_domain demoParse demoEnts demoEdges demoNodes rfl).2.1
      "TA" (by decide),
   (node_map_domain demoParse demoEnts demoEdges demoNodes rfl).2.2⟩

/-- Semantic equality of two arenas: the same names are present, and nodes
under the same name agree on name, kind and identifier and have the same
subordinate/superior memberships.  Keypairs (generation indices) are
deliberately not compared. -/
def SemEq (m1 m2 : List (String × Node)) : Prop :=
  (∀ n, (alookup m1 n).isSome = true ↔ (alookup m2 n).isSome = true) ∧
  (∀ n N1 N2, alookup m1 n = some N1 → alookup m2 n = some N2 →
    N1.name = N2.name ∧ N1.kind = N2.kind ∧ N1.identifier = N2.identifier ∧
    (∀ x, x ∈ N1.subs ↔ x ∈ N2.subs) ∧ (∀ x, x ∈ N1.sups ↔ x ∈ N2.sups))

/-- C5: for fixed entity declarations, two edge lists that denote the same set
of head/tail pairs (order and repetition aside) build semantically equal
arenas: same names, kinds, identifiers and superior/subordinate
relationships, keypair randomness aside. -/
theorem build_edge_set_function (parseURL : String → Option String)
    (ents : List (String × EntityDecl)) (es1 es2 : List String)
    (m1 m2 : List (String × Node))
    (h1 : mustParseConfig parseURL ents es1 = .ok m1)
    (h2 : mustParseConfig parseURL ents es2 = .ok m2)
    (hset : ∀ p, p ∈ edgePairs es1 ↔ p ∈ edgePairs es2) :
    SemEq m1 m2 := by
  obtain ⟨_, _, hdom1, hchar1⟩ := mustParseConfig_ok_char h1
  obtain ⟨_, _, hdom2, hchar2⟩ := mustParseConfig_ok_char h2
  constructor
  · intro n
    rw [hdom1, hdom2, mem_refNames, mem_refNames]
    constructor
    · rintro (⟨t, ht⟩ | ⟨hh, hhm⟩)
      · exact Or.inl ⟨t, (hset _).mp ht⟩
      · exact Or.inr ⟨hh, (hset _).mp hhm⟩
    · rintro (⟨t, ht⟩ | ⟨hh, hhm⟩)
      · exact Or.inl ⟨t, (hset _).mpr ht⟩
      · exact Or.inr ⟨hh, (hset _).mpr hhm⟩
  · intro n N1 N2 hl1 hl2
    obtain ⟨d1, hd1, hn1, hk1, hu1, hs1, hp1⟩ := hchar1 n N1 hl1
    obtain ⟨d2, hd2, hn2, hk2, hu2, hs2, hp2⟩ := hchar2 n N2 hl2
    rw [hd1] at hd2
    injection hd2 with hd
    subst hd
    refine ⟨by rw [hn1, hn2], by rw [hk1, hk2], ?_, ?_, ?_⟩
    · rw [hu1] at hu2
      injection hu2
    · intro x
      rw [hs1, hs2, mem_tailsOf, mem_tailsOf]
      exact hset _
    · intro x
      rw [hp1, hp2, mem_headsOf, mem_headsOf]
      exact hset _

/-- Edges of the running example, permuted and with a repetition; they denote
the same edge set as `demoEdges`. -/
def demoEdgesPerm : List String :=
  ["IM -> OP", "TA -> OP", "TA -> IM", "TA -> IM"]

/-- C5 witness: the demo edge list and its permutation-with-repetition build
semantically equal arenas. -/
theorem build_edge_set_function_witness :
    ∃ m2, mustParseConfig demoParse demoEnts demoEdgesPerm = .ok m2 ∧
      SemEq demoNodes m2 :=
  ⟨[("IM", { name := "IM", kind := "intermediate",
             identifier := "https://im.example.com", key := 0,
             subs := ["OP"], sups := ["TA", "TA"] }),
    ("OP", { name := "OP", kind := "leaf",
             identifier := "https://op.example.com", key := 1,
             subs := [], sups := ["IM", "TA"] }),
    ("TA", { name := "TA", kind := "trust-anchor",
             identifier := "https://ta.example.com", key := 2,
             subs := ["OP", "IM", "IM"], sups := [] })],
   rfl,
   build_edge_set_function demoParse demoEnts demoEdges demoEdgesPerm
     demoNodes _ rfl rfl (by
        have e1 : edgePairs demoEdges =
            [("TA", "IM"), ("TA", "OP"), ("IM", "OP")] := rfl
        have e2 : edgePairs demoEdgesPerm =
            [("IM", "OP"), ("TA", "OP"), ("TA", "IM"), ("TA", "IM")] := rfl
        intro p
        rw [e1, e2]
        simp only [List.mem_cons, List.not_mem_nil, or_false]
        tauto)⟩

/-- C9: the trust materialization loop iterates every node's subordinates
without checking the node's kind, while only intermediate/trust-anchor nodes
own a store.  First half: if any node of leaf kind heads at least one edge,
materialization dereferences its nil store and panics — no handled error.
Second half: if every edge head is of intermediate or trust-anchor kind,
materialization completes. -/
theorem materialize_nil_store_panics (parseURL : String → Option String)
    (ents : List (String × EntityDecl)) (edges : List String)
    (m : List (String × Node))
    (h : mustParseConfig parseURL ents edges = .ok m) :
    (∀ p c P, (p, c) ∈ edgePairs edges → alookup m p = some P →
      P.kind = EntityKindLeaf →
      materialize m = .error .panicNilStore) ∧
    ((∀ p c P, (p, c) ∈ edgePairs edges → alookup m p = some P →
        P.kind = EntityKindIntermediate ∨ P.kind = EntityKindTrustAnchor) →
      ∃ stores, materialize m = .ok stores) := by
  obtain ⟨_, hmnd, hdom, hchar⟩ := mustParseConfig_ok_char h
  constructor
  · intro p c P hpc hP hleaf
    have hts : hasTrustStore P.kind = false := by
      rw [hleaf]
      rfl
    have hsubs : P.subs ≠ [] := by
      obtain ⟨d, _, _, _, _, hs, _⟩ := hchar p P hP
      rw [hs]
      intro hnil
      have hmem : c ∈ tailsOf p (edgePairs edges) := mem_tailsOf.mpr hpc
      rw [hnil] at hmem
      cases hmem
    exact materializeFold_bad (alookup_mem hP) hts hsubs
  · intro hall
    refine materializeFold_ok_exists ?_
    intro n node hm hsubs
    have hlook : alookup m n = some node := alookup_of_mem_nodup hmnd hm
    obtain ⟨d, _, _, _, _, hs, _⟩ := hchar n node hlook
    obtain ⟨c, hc⟩ : ∃ c, c ∈ node.subs := by
      cases hx : node.subs with
      | nil => exact absurd hx hsubs
      | cons c cr => exact ⟨c, List.mem_cons_self _ _⟩
    have hpc : (n, c) ∈ edgePairs edges := by
      rw [hs] at hc
      exact mem_tailsOf.mp hc
    rcases hall n c node hpc hlook with hk | hk <;> rw [hk] <;> rfl

/-- Entity declarations with a leaf that heads an edge. -/
def demoLeafHeadEnts : List (String × EntityDecl) :=
  [("TA", { kind := "trust-anchor", identifier := "https://ta.example.com" }),
   ("OP", { kind := "leaf", identifier := "https://op.example.com" }),
   ("RP", { kind := "leaf", identifier := "https://rp.example.com" })]

/-- Edges in which leaf `OP` heads an edge. -/
def demoLeafHeadEdges : List String := ["TA -> OP", "OP -> RP"]

/-- The arena built from `demoLeafHeadEnts`/`demoLeafHeadEdges`. -/
def demoLeafHeadNodes : List (String × Node) :=
  [("TA", { name := "TA", kind := "trust-anchor",
            identifier := "https://ta.example.com", key := 0,
            subs := ["OP"], sups := [] }),
   ("OP", { name := "OP", kind := "leaf",
            identifier := "https://op.example.com", key := 1,
            subs := ["RP"], sups := ["TA"] }),
   ("RP", { name := "RP", kind := "leaf",
            identifier := "https://rp.example.com", key := 2,
            subs := [], sups := ["OP"] })]

/-- C9 witness: with leaf `OP` heading an edge, materialization panics on the
nil store; on the demo configuration, where every edge head owns a store,
materialization completes. -/
theorem materialize_nil_store_panics_witness :
    materialize demoLeafHeadNodes = .error .panicNilStore ∧
    (∃ stores, materialize demoNodes = .ok stores) :=
  ⟨(materialize_nil_store_panics demoParse demoLeafHeadEnts demoLeafHeadEdges
      demoLeafHeadNodes rfl).1 "OP" "RP" _ (by decide) rfl rfl,
   (materialize_nil_store_panics demoParse demoEnts demoEdges demoNodes rfl).2
     (by
        intro p c P hpc hP
        have hpairs : edgePairs demoEdges =
            [("TA", "IM"), ("TA", "OP"), ("IM", "OP")] := rfl
        rw [hpairs] at hpc
        rcases List.mem_cons.mp hpc with h1 | hpc2
        · cases h1
          have hP2 : some demoTA = some P := hP
          injection hP2 with hP2
          subst hP2
          exact Or.inr rfl
        · rcases List.mem_cons.mp hpc2 with h1 | hpc3
          · cases h1
            have hP2 : some demoTA = some P := hP
            injection hP2 with hP2
            subst hP2
            exact Or.inr rfl
          · rcases List.mem_cons.mp hpc3 with h1 | hnil
            · cases h1
              have hP2 : some demoIM = some P := hP
              injection hP2 with hP2
              subst hP2
              exact Or.inl rfl
            · cases hnil)⟩

/-- C8: every entity's handler is registered under the pattern
`Hostname() + "/"` — the hostname portion of its identifier with the port
excluded — so once startup succeeds, a request whose Host header equals an
entity's hostname dispatches to that entity's handler and to no other. -/
theorem host_dispatch_unique (parseURL : String → Option String)
    (hostnameOf : String → String) (ents : List (String × EntityDecl))
    (edges : List String) (server : Server)
    (h : startup parseURL hostnameOf ents edges = .ok server) :
    ∀ name node, alookup server.nodes name = some node →
      (hostnameOf node.identifier ++ "/", name) ∈ server.mux ∧
      dispatchHost server.mux (hostnameOf node.identifier) = some name := by
  obtain ⟨_, hreg, _⟩ := startup_ok_char h
  intro name node hl
  have hlook := registerAll_lookup hreg name node (alookup_mem hl)
  exact ⟨alookup_mem hlook, hlook⟩

/-- C8 witness: on the demo startup every entity is dispatched from its own
hostname and no other name is returned for it. -/
theorem host_dispatch_unique_witness :
    ("ta.example.com/", "TA") ∈ demoServer.mux ∧
    dispatchHost demoServer.mux "ta.example.com" = some "TA" ∧
    dispatchHost demoServer.mux "im.example.com" = some "IM" := by
  have h1 := host_dispatch_unique demoParse demoHost demoEnts demoEdges
    demoServer rfl "TA" demoTA rfl
  have h2 := host_dispatch_unique demoParse demoHost demoEnts demoEdges
    demoServer rfl "IM" demoIM rfl
  exact ⟨h1.1, h1.2, h2.2⟩

/-- Entity declarations in which two entities share a hostname. -/
def demoDupEnts : List (String × EntityDecl) :=
  [("TA", { kind := "trust-anchor", identifier := "https://shared.example.com" }),
   ("OP", { kind := "leaf", identifier := "https://shared.example.com" })]

/-- Edges for the shared-hostname configuration. -/
def demoDupEdges : List String := ["TA -> OP"]

/-- C4 counterexample: with two entities whose identifiers share the hostname
`shared.example.com`, startup does not proceed — handler registration hits
`http.ServeMux`'s duplicate-pattern panic and aborts; nobody silently
replaces anybody. -/
theorem duplicate_hostname_counterexample :
    demoHost "https://shared.example.com" = "shared.example.com" ∧
    startup demoParse demoHost demoDupEnts demoDupEdges =
      .error .panicDuplicatePattern ∧
    (∀ server, startup demoParse demoHost demoDupEnts demoDupEdges ≠
      .ok server) := by
  refine ⟨rfl, rfl, ?_⟩
  intro server hcontra
  rw [show startup demoParse demoHost demoDupEnts demoDupEdges =
      .error .panicDuplicatePattern from rfl] at hcontra
  cases hcontra

/-- C4 amended: when two distinct entities' identifier URLs share a hostname,
handler registration panics (`http.ServeMux` refuses a second registration of
the pattern `host + "/"`), aborting startup; the later entity does not
replace the earlier one. -/
theorem duplicate_hostname_registration_panics (hostnameOf : String → String)
    (m : List (String × Node)) (n1 n2 : String) (node1 node2 : Node)
    (h1 : (n1, node1) ∈ m) (h2 : (n2, node2) ∈ m) (hne : n1 ≠ n2)
    (heq : hostnameOf node1.identifier = hostnameOf node2.identifier) :
    registerAll hostnameOf m = .error .panicDuplicatePattern := by
  cases hr : registerAll hostnameOf m with
  | ok table =>
    exact absurd (registerAll_hostname_inj hr n1 node1 n2 node2 h1 h2 heq) hne
  | error er =>
    rw [registerFold_error hr]

/-- The `TA` node of the shared-hostname arena. -/
def demoDupTA : Node :=
  { name := "TA", kind := "trust-anchor",
    identifier := "https://shared.example.com", key := 0,
    subs := ["OP"], sups := [] }

/-- The `OP` node of the shared-hostname arena. -/
def demoDupOP : Node :=
  { name := "OP", kind := "leaf",
    identifier := "https://shared.example.com", key := 1,
    subs := [], sups := ["TA"] }

/-- Arena with two nodes sharing a hostname, as the shared-hostname demo
configuration builds it. -/
def demoDupNodes : List (String × Node) :=
  [("TA", demoDupTA), ("OP", demoDupOP)]

/-- C4 amended witness: registering the shared-hostname arena panics. -/
theorem duplicate_hostname_registration_panics_witness :
    registerAll demoHost demoDupNodes = .error .panicDuplicatePattern :=
  duplicate_hostname_registration_panics demoHost demoDupNodes "TA" "OP"
    demoDupTA demoDupOP (by decide) (by decide) (by decide) rfl

/-- C1: when startup completes (build, handler registration and trust
materialization all succeed — materialization runs only after registration in
`main`), then for every config edge `(p, c)` whose head is of intermediate or
trust-anchor kind, the head's trust store holds a record keyed by the
subordinate's identifier whose key set is the subordinate's generated public
keys, whose entityID is the subordinate's identifier, and whose status is
active. -/
theorem trust_materialization_complete (parseURL : String → Option String)
    (hostnameOf : String → String) (ents : List (String × EntityDecl))
    (edges : List String) (server : Server)
    (h : startup parseURL hostnameOf ents edges = .ok server)
    (p c : String) (hpc : (p, c) ∈ edgePairs edges)
    (P : Node) (hP : alookup server.nodes p = some P)
    (hkind : P.kind = EntityKindIntermediate ∨ P.kind = EntityKindTrustAnchor) :
    ∃ C store rec,
      alookup server.nodes c = some C ∧
      alookup server.stores p = some store ∧
      alookup store C.identifier = some rec ∧
      rec.jwks = publicJWKS C.key ∧ rec.entityID = C.identifier ∧
      rec.status = .active := by
  obtain ⟨hparse, hreg, hmat⟩ := startup_ok_char h
  obtain ⟨_, hmnd, hdom, hchar⟩ := mustParseConfig_ok_char hparse
  have hcmem : c ∈ refNames (edgePairs edges) := mem_refNames.mpr (Or.inr ⟨p, hpc⟩)
  obtain ⟨C, hC⟩ : ∃ C, alookup server.nodes c = some C :=
    Option.isSome_iff_exists.mp ((hdom c).mpr hcmem)
  have hts : hasTrustStore P.kind = true := by
    rcases hkind with hk | hk <;> rw [hk] <;> rfl
  have hstore :=
    materializeFold_lookup hmat hmnd p P (alookup_mem hP) hts
  have hsubmem : c ∈ P.subs := by
    obtain ⟨d, _, _, _, _, hs, _⟩ := hchar p P hP
    rw [hs]
    exact mem_tailsOf.mpr hpc
  have hinj : ∀ c2 C2, c2 ∈ P.subs → alookup server.nodes c2 = some C2 →
      C2.identifier = C.identifier → C2 = C := by
    intro c2 C2 hc2 hC2 hid
    have hhost : hostnameOf C2.identifier = hostnameOf C.identifier := by
      rw [hid]
    have hname := registerAll_hostname_inj hreg c2 C2 c C
      (alookup_mem hC2) (alookup_mem hC) hhost
    subst hname
    rw [hC2] at hC
    injection hC
  have hw := writeSubs_lookup P.subs [] hinj (Or.inl ⟨c, hsubmem, hC⟩)
  exact ⟨C, writeSubs server.nodes P.subs [], subInfo C, hC, hstore, hw,
    rfl, rfl, rfl⟩

/-- C1 witness: on the demo startup, the edge `TA -> IM` yields in TA's store
a record keyed by IM's identifier carrying IM's public keys, IM's identifier
and active status. -/
theorem trust_materialization_complete_witness :
    ∃ C store rec,
      alookup demoServer.nodes "IM" = some C ∧
      alookup demoServer.stores "TA" = some store ∧
      alookup store C.identifier = some rec ∧
      rec.jwks = publicJWKS C.key ∧ rec.entityID = C.identifier ∧
      rec.status = .active :=
  trust_materialization_complete demoParse demoHost demoEnts demoEdges
    demoServer rfl "TA" "IM" (by decide) demoTA rfl (Or.inr rfl)

/-- Condition 1 of the spec's builder contract: some entity declaration has an
empty kind or an empty identifier. -/
def BadEntityDecl (ents : List (String × EntityDecl)) : Prop :=
  ∃ k d, (k, d) ∈ ents ∧ (d.kind = "" ∨ d.identifier = "")

/-- Condition 2: some edge references a name with no entity declaration. -/
def UndefinedEdgeRef (ents : List (String × EntityDecl))
    (edges : List String) : Prop :=
  ∃ e hd tl, e ∈ edges ∧ edgePair e = some (hd, tl) ∧
    (alookup ents hd = none ∨ alookup ents tl = none)

/-- Condition 3: some entity referenced by an edge has an identifier URL that
fails to parse. -/
def UnparsableRefURL (parseURL : String → Option String)
    (ents : List (String × EntityDecl)) (edges : List String) : Prop :=
  ∃ n d, n ∈ refNames (edgePairs edges) ∧ alookup ents n = some d ∧
    parseURL d.identifier = none

theorem edgePair_some_shape {e : String} {hd tl : String}
    (h : edgePair e = some (hd, tl)) :
    ∃ s0 s1 r, splitArrow e = s0 :: s1 :: r ∧ hd = trimStr s0 ∧
      tl = trimStr s1 := by
  unfold edgePair at h
  cases hsp : splitArrow e with
  | nil => rw [hsp] at h; cases h
  | cons s0 r0 =>
    cases r0 with
    | nil => rw [hsp] at h; cases h
    | cons s1 r =>
      rw [hsp] at h
      simp only at h
      injection h with h
      injection h with h1 h2
      exact ⟨s0, s1, r, rfl, h1.symm, h2.symm⟩

theorem processEdge_ok_of {parseURL : String → Option String}
    {ents : List (String × EntityDecl)} {st : BuildState} {e : String}
    {s0 s1 : String} {r : List String} {dh dt : EntityDecl}
    {sa sb : BuildState} (hsp : splitArrow e = s0 :: s1 :: r)
    (hdh : alookup ents (trimStr s0) = some dh)
    (hdt : alookup ents (trimStr s1) = some dt)
    (hc1 : createIfAbsent parseURL st (trimStr s0) dh = .ok sa)
    (hc2 : createIfAbsent parseURL sa (trimStr s1) dt = .ok sb) :
    processEdge parseURL ents st e = .ok (addLink sb (trimStr s0) (trimStr s1)) := by
  unfold processEdge
  rw [hsp]
  simp only
  rw [hdh]
  simp only
  rw [hdt]
  simp only
  rw [hc1]
  simp only
  rw [hc2]

theorem buildFold_ok_exists {parseURL : String → Option String}
    {ents : List (String × EntityDecl)} :
    ∀ {es : List String} {st : BuildState},
      (∀ e ∈ es, ∃ hd tl dh dt, edgePair e = some (hd, tl) ∧
        alookup ents hd = some dh ∧ alookup ents tl = some dt) →
      (∀ n d, n ∈ refNames (edgePairs es) → alookup ents n = some d →
        parseURL d.identifier ≠ none) →
      ∃ st', buildFold parseURL ents st es = .ok st' := by
  intro es
  induction es with
  | nil => intro st _ _; exact ⟨st, rfl⟩
  | cons e es ih =>
    intro st hdecls hparse
    obtain ⟨hd, tl, dh, dt, hpair, hdh, hdt⟩ :=
      hdecls e (List.mem_cons_self _ _)
    obtain ⟨s0, s1, r, hsp, he0, he1⟩ := edgePair_some_shape hpair
    subst he0
    subst he1
    have hdmem : trimStr s0 ∈ refNames (edgePairs (e :: es)) := by
      rw [edgePairs_cons_of_some hpair]
      exact List.mem_cons_self _ _
    have htmem : trimStr s1 ∈ refNames (edgePairs (e :: es)) := by
      rw [edgePairs_cons_of_some hpair]
      exact List.mem_cons_of_mem _ (List.mem_cons_self _ _)
    obtain ⟨sa, hc1⟩ : ∃ sa,
        createIfAbsent parseURL st (trimStr s0) dh = .ok sa := by
      unfold createIfAbsent
      cases hl : alookup st.nodes (trimStr s0) with
      | some v => exact ⟨st, rfl⟩
      | none =>
        cases hpu : parseURL dh.identifier with
        | none => exact absurd hpu (hparse (trimStr s0) dh hdmem hdh)
        | some u => exact ⟨_, rfl⟩
    obtain ⟨sb, hc2⟩ : ∃ sb,
        createIfAbsent parseURL sa (trimStr s1) dt = .ok sb := by
      unfold createIfAbsent
      cases hl : alookup sa.nodes (trimStr s1) with
      | some v => exact ⟨sa, rfl⟩
      | none =>
        cases hpu : parseURL dt.identifier with
        | none => exact absurd hpu (hparse (trimStr s1) dt htmem hdt)
        | some u => exact ⟨_, rfl⟩
    have hstep := processEdge_ok_of hsp hdh hdt hc1 hc2
    obtain ⟨st', hrest⟩ :=
      @ih (addLink sb (trimStr s0) (trimStr s1))
        (fun e2 he2 => hdecls e2 (List.mem_cons_of_mem _ he2))
        (fun n d hn hd2 => hparse n d (by
          rw [edgePairs_cons_of_some hpair]
          exact List.mem_cons_of_mem _ (List.mem_cons_of_mem _ hn)) hd2)
    refine ⟨st', ?_⟩
    unfold buildFold
    rw [hstep]
    simp only
    exact hrest

theorem mustParseConfig_ok_no_error_conditions {parseURL : String → Option String}
    {ents : List (String × EntityDecl)} {edges : List String}
    {m : List (String × Node)}
    (h : mustParseConfig parseURL ents edges = .ok m) :
    ¬ BadEntityDecl ents ∧ ¬ UndefinedEdgeRef ents edges ∧
      ¬ UnparsableRefURL parseURL ents edges := by
  obtain ⟨hck, _, hdom, hchar⟩ := mustParseConfig_ok_char h
  refine ⟨?_, ?_, ?_⟩
  · rintro ⟨k, d, hm, hbad⟩
    have hval := (checkEntities_ok_iff.mp hck) k d hm
    rcases hbad with hb | hb
    · exact hval.1 hb
    · exact hval.2 hb
  · rintro ⟨e, hd, tl, he, hpair, hnone⟩
    obtain ⟨hd2, tl2, dh, dt, hpair2, hdh, hdt⟩ := mustParseConfig_edges_ok h e he
    rw [hpair] at hpair2
    injection hpair2 with hp
    cases hp
    rcases hnone with hn | hn
    · rw [hdh] at hn; cases hn
    · rw [hdt] at hn; cases hn
  · rintro ⟨n, d, hmem, hd, hpnone⟩
    obtain ⟨node, hnode⟩ := Option.isSome_iff_exists.mp ((hdom n).mpr hmem)
    obtain ⟨d2, hd2, _, _, hu, _, _⟩ := hchar n node hnode
    rw [hd] at hd2
    injection hd2 with hd2
    subst hd2
    rw [hpnone] at hu
    cases hu

/-- C3, amended: assuming every edge string contains the separator `"->"`
(otherwise the edge loop panics out of range before any configuration check
can report, see the counterexample), the topology build fails with a
`log.Fatalf` configuration error exactly when some entity declaration has an
empty kind or identifier, some edge references an undeclared name, or some
referenced entity's identifier URL fails to parse; and whenever the build
fails, no node map is returned and startup aborts with that error before the
registration, materialization and listener steps. -/
theorem build_configerror_iff (parseURL : String → Option String)
    (hostnameOf : String → String) (ents : List (String × EntityDecl))
    (edges : List String)
    (hwf : ∀ e ∈ edges, (edgePair e).isSome = true) :
    ((∃ er, mustParseConfig parseURL ents edges = .error er ∧
        er.isConfigError = true) ↔
      (BadEntityDecl ents ∨ UndefinedEdgeRef ents edges ∨
        UnparsableRefURL parseURL ents edges)) ∧
    (∀ er, mustParseConfig parseURL ents edges = .error er →
      (∀ m, mustParseConfig parseURL ents edges ≠ .ok m) ∧
      startup parseURL hostnameOf ents edges = .error er) := by
  constructor
  · constructor
    · rintro ⟨er, herr, hcfg⟩
      by_contra hnc
      push_neg at hnc
      obtain ⟨hnb, hnu, hnp⟩ := hnc
      have hck : checkEntities ents = .ok () := by
        rw [checkEntities_ok_iff]
        intro k d hm
        constructor
        · intro hkind
          exact hnb ⟨k, d, hm, Or.inl hkind⟩
        · intro hid
          exact hnb ⟨k, d, hm, Or.inr hid⟩
      have hdecls : ∀ e ∈ edges, ∃ hd tl dh dt, edgePair e = some (hd, tl) ∧
          alookup ents hd = some dh ∧ alookup ents tl = some dt := by
        intro e he
        obtain ⟨⟨hd, tl⟩, hpair⟩ := Option.isSome_iff_exists.mp (hwf e he)
        cases hdh : alookup ents hd with
        | none => exact absurd ⟨e, hd, tl, he, hpair, Or.inl hdh⟩ hnu
        | some dh =>
          cases hdt : alookup ents tl with
          | none => exact absurd ⟨e, hd, tl, he, hpair, Or.inr hdt⟩ hnu
          | some dt => exact ⟨hd, tl, dh, dt, hpair, hdh, hdt⟩
      have hparse : ∀ n d, n ∈ refNames (edgePairs edges) →
          alookup ents n = some d → parseURL d.identifier ≠ none := by
        intro n d hn hd hpn
        exact hnp ⟨n, d, hn, hd, hpn⟩
      obtain ⟨st', hb⟩ :=
        @buildFold_ok_exists parseURL ents edges { nodes := [], nextKey := 0 }
          hdecls hparse
      have hok : mustParseConfig parseURL ents edges = .ok st'.nodes := by
        unfold mustParseConfig
        rw [hck]
        simp only
        rw [hb]
      rw [hok] at herr
      cases herr
    · intro hcond
      cases hres : mustParseConfig parseURL ents edges with
      | ok m =>
        obtain ⟨hnb, hnu, hnp⟩ := mustParseConfig_ok_no_error_conditions hres
        rcases hcond with hc | hc | hc
        · exact absurd hc hnb
        · exact absurd hc hnu
        · exact absurd hc hnp
      | error er =>
        exact ⟨er, rfl, mustParseConfig_error_config hwf hres⟩
  · intro er herr
    constructor
    · intro m hm
      rw [herr] at hm
      cases hm
    · unfold startup
      rw [herr]

/-- Entity declarations for the malformed-edge counterexample: `A` is validly
declared, `B` is not declared at all. -/
def demoBadEnts : List (String × EntityDecl) :=
  [("A", { kind := "leaf", identifier := "https://a.example.com" })]

/-- Edge list whose first edge lacks the separator and whose second edge
references the undeclared `B`. -/
def demoBadEdges : List String := ["junk", "A -> B"]

/-- C3 counterexample: on `demoBadEnts`/`demoBadEdges` the claim's condition
holds (edge 1 references the undeclared `B`), yet the build does not fail
with a configuration error: it panics out of range on edge 0, whose string
has no separator, so the claimed equivalence is false as stated. -/
theorem build_configerror_iff_counterexample :
    UndefinedEdgeRef demoBadEnts demoBadEdges ∧
    mustParseConfig demoParse demoBadEnts demoBadEdges =
      .error .panicIndexOutOfRange ∧
    (∀ er, mustParseConfig demoParse demoBadEnts demoBadEdges = .error er →
      er.isConfigError = false) := by
  refine ⟨⟨"A -> B", "A", "B", by decide, rfl, Or.inr rfl⟩, rfl, ?_⟩
  intro er h
  have h2 : (Except.error .panicIndexOutOfRange :
      Except Err (List (String × Node))) = .error er := h
  injection h2 with h2
  subst h2
  rfl

/-- A well-formed edge list referencing the undeclared `B`. -/
def demoUndefEdges : List String := ["A -> B"]

/-- C3 amended witness: on a well-formed edge list referencing an undeclared
name, the equivalence holds and the build error propagates so that startup
aborts before the listener. -/
theorem build_configerror_iff_witness :
    (∀ e ∈ demoUndefEdges, (edgePair e).isSome = true) ∧
    ((∃ er, mustParseConfig demoParse demoBadEnts demoUndefEdges = .error er ∧
        er.isConfigError = true) ↔
      (BadEntityDecl demoBadEnts ∨ UndefinedEdgeRef demoBadEnts demoUndefEdges ∨
        UnparsableRefURL demoParse demoBadEnts demoUndefEdges)) ∧
    startup demoParse demoHost demoBadEnts demoUndefEdges =
      .error .undefinedRef :=
  ⟨by decide,
   (build_configerror_iff demoParse demoHost demoBadEnts demoUndefEdges
     (by decide)).1,
   ((build_configerror_iff demoParse demoHost demoBadEnts demoUndefEdges
     (by decide)).2 .undefinedRef rfl).2⟩
